import Mathlib

/-!
Shallow embedding of the `new_bitflags!` macro expansion (src/src/lib.rs).
A flag declaration is the macro input: a backing integer width and an
ordered list of (name, bit value) pairs. Flag-set values are the wrapped
integers of the backing type, modelled as natural numbers below `2 ^ width`;
the Rust `!` operator on the backing type is complement at that fixed width.
-/

namespace NewBitflags

/-- Macro input: the backing integer width and the ordered flag declarations. -/
structure FlagDecl where
  width : Nat
  flags : List (String × Nat)

/-- Bitwise complement at a fixed width, the Rust `!` operator on the
backing unsigned integer type. -/
def notW (w x : Nat) : Nat := x ^^^ (2 ^ w - 1)

/-- Rust `fn all()`: `$name(0 $( | $value )*)`, the OR of every declared
flag value, folded left in declaration order starting from 0. -/
def all (d : FlagDecl) : Nat := d.flags.foldl (fun acc p => acc ||| p.2) 0

/-- Rust `fn empty()`: `$name(0)`. -/
def empty : Nat := 0

/-- Rust `fn bits()`: the underlying bits of the wrapped value. -/
def bits (a : Nat) : Nat := a

/-- Rust `fn from_bits(bits)`: `Some(bits)` if `bits & !all().bits() == 0`,
else `None`. -/
def from_bits (d : FlagDecl) (b : Nat) : Option Nat :=
  if b &&& notW d.width (all d) = 0 then some b else none

/-- Rust `fn from_bits_truncate(bits)`: `$name(bits) & $name::all()`. -/
def from_bits_truncate (d : FlagDecl) (b : Nat) : Nat :=
  b &&& all d

/-- Rust `fn contains(flag)`: `*self & flag == flag`. -/
def contains (a fl : Nat) : Bool := a &&& fl == fl

/-- Rust `fn is_empty()`: `self.bits() == 0`. -/
def is_empty (a : Nat) : Bool := bits a == 0

/-- Rust `fn insert(other)`: `self.0 |= other.0`. -/
def insert (a o : Nat) : Nat := a ||| o

/-- Rust `fn remove(other)`: `self.0 &= !other.0` (full-width complement of
the backing type). -/
def remove (w : Nat) (a o : Nat) : Nat := a &&& notW w o

/-- Rust `impl BitOr`: `$name(self.0 | rhs.0)`. -/
def bitor (a b : Nat) : Nat := a ||| b

/-- Rust `impl BitAnd`: `$name(self.0 & rhs.0)`. -/
def bitand (a b : Nat) : Nat := a &&& b

/-- Rust `impl BitXor`: `$name(self.0 ^ rhs.0)`. -/
def bitxor (a b : Nat) : Nat := a ^^^ b

/-- Rust `impl Not`: `self ^ $name::all()`. -/
def not (d : FlagDecl) (a : Nat) : Nat := bitxor a (all d)

/-- Rust `impl Sub`: `self.remove(rhs); self`. -/
def sub (w : Nat) (a b : Nat) : Nat := remove w a b

/-- One step of the Debug formatter loop body, acting on the state
(working copy of the flags, the first-name marker, output so far): if the
declared flag is non-empty and contained in the working copy, write the
separator unless first, clear the flag bits from the working copy and write
the flag name; otherwise leave the state unchanged. -/
def fmtOne (w : Nat) (st : Nat × Bool × String) (p : String × Nat) :
    Nat × Bool × String :=
  if (! is_empty p.2) && contains st.1 p.2 then
    let out := if ! st.2.1 then st.2.2 ++ " | " else st.2.2
    (remove w st.1 p.2, false, out ++ p.1)
  else st

/-- Rust `impl Debug for $name::fmt`: write `TypeName(`, run the loop body
over the declared flags in declaration order, write `)`. -/
def fmt (d : FlagDecl) (name : String) (x : Nat) : String :=
  (d.flags.foldl (fmtOne d.width) (x, true, name ++ "(")).2.2 ++ ")"

/-- Rust `impl FromIterator`: start from `empty()` and `insert` each element
of the sequence in turn (as `extend` does). -/
def from_iter (l : List Nat) : Nat := l.foldl insert empty

/-- Specification-level description of the names the Debug formatter prints:
declared flags are visited in declaration order, a flag with bit value zero
is never printed, each flag is tested against the remaining unconsumed bits,
and a printed flag's bits are cleared from the working copy before the next
test. -/
def debugNames (w : Nat) : Nat → List (String × Nat) → List String
  | _, [] => []
  | rem, p :: rest =>
    if p.2 ≠ 0 ∧ rem &&& p.2 = p.2 then
      p.1 :: debugNames w (rem &&& notW w p.2) rest
    else
      debugNames w rem rest

/-- Specification-level rendering of a list of printed names: the separator
string appears only between consecutive names, never before the first nor
after the last. -/
def sepCat : List String → String
  | [] => ""
  | n :: rest => " | " ++ n ++ sepCat rest

/-- Renders a name list with `" | "` between consecutive names. -/
def renderNames : List String → String
  | [] => ""
  | n :: rest => n ++ sepCat rest

/-- Test declaration `Foo` from tests/test_flags.rs: `alpha = 1`, `beta = 2`,
`nothing = 0` on a 32-bit backing type. -/
def fooDecl : FlagDecl := ⟨32, [("alpha", 1), ("beta", 2), ("nothing", 0)]⟩

/-- Declaration with overlapping flag values: `f1 = 0b01` declared before
`f2 = 0b11`, on an 8-bit backing type. -/
def overlapDecl : FlagDecl := ⟨8, [("f1", 1), ("f2", 3)]⟩

/-! Bitwise helper lemmas. -/

/-- A value is unchanged by masking with `y` exactly when every set bit of the
value is a set bit of `y`. -/
theorem land_self_iff (x y : Nat) :
    x &&& y = x ↔ ∀ i, x.testBit i = true → y.testBit i = true := by
  constructor
  · intro h i hx
    have h2 : (x &&& y).testBit i = x.testBit i := by rw [h]
    rw [Nat.testBit_land, hx] at h2
    simpa using h2
  · intro h
    apply Nat.eq_of_testBit_eq
    intro i
    rw [Nat.testBit_land]
    cases hx : x.testBit i
    · simp
    · simp [h i hx]

/-- XOR with a mask keeps values inside the mask. -/
theorem xor_all_closed (m a : Nat) (ha : a &&& m = a) :
    (a ^^^ m) &&& m = a ^^^ m := by
  rw [land_self_iff] at ha ⊢
  intro i hi
  by_cases hm : m.testBit i = true
  · exact hm
  · exfalso
    have hmf : m.testBit i = false := by simpa using hm
    rw [Nat.testBit_xor, hmf] at hi
    simp at hi
    exact hm (ha i hi)

/-- Set bits of a value below `2 ^ w` sit below position `w`. -/
theorem testBit_lt_width (w x i : Nat) (hx : x < 2 ^ w)
    (hxi : x.testBit i = true) : i < w := by
  by_contra hge
  have hlt : x < 2 ^ i :=
    lt_of_lt_of_le hx (Nat.pow_le_pow_right (by norm_num) (Nat.le_of_not_lt hge))
  rw [Nat.testBit_eq_false_of_lt hlt] at hxi
  exact Bool.false_ne_true hxi

/-- For a value of the backing width, masking with the width-w complement of
`y` gives zero exactly when the value's bits are all within `y`. -/
theorem land_notW_eq_zero_iff (w x y : Nat) (hx : x < 2 ^ w) :
    x &&& notW w y = 0 ↔ x &&& y = x := by
  constructor
  · intro h
    rw [land_self_iff]
    intro i hxi
    have hiw : i < w := testBit_lt_width w x i hx hxi
    have h0 : (x &&& notW w y).testBit i = false := by
      rw [h]; exact Nat.zero_testBit i
    rw [Nat.testBit_land, notW, Nat.testBit_xor, Nat.testBit_two_pow_sub_one,
      hxi, decide_eq_true hiw] at h0
    simpa using h0
  · intro h
    apply Nat.zero_of_testBit_eq_false
    intro i
    rw [Nat.testBit_land, notW, Nat.testBit_xor, Nat.testBit_two_pow_sub_one]
    cases hxi : x.testBit i
    · simp
    · have hiw : i < w := testBit_lt_width w x i hx hxi
      have hy : y.testBit i = true := (land_self_iff x y).mp h i hxi
      rw [hy, decide_eq_true hiw]
      simp

/-! Formatter refinement lemmas. -/

/-- Running the formatter loop appends exactly the rendered name list to the
output accumulated so far: with the first-name marker set the head name gets
no separator, otherwise every printed name is preceded by the separator. -/
theorem foldl_fmtOne_out (w : Nat) (l : List (String × Nat)) :
    ∀ (rem : Nat) (first : Bool) (out : String),
      (l.foldl (fmtOne w) (rem, first, out)).2.2 =
        out ++ (if first = true then renderNames (debugNames w rem l)
                else sepCat (debugNames w rem l)) := by
  induction l with
  | nil =>
    intro rem first out
    cases first <;> simp [debugNames, renderNames, sepCat]
  | cons p rest ih =>
    intro rem first out
    by_cases h0 : p.2 = 0
    · have hstep : fmtOne w (rem, first, out) p = (rem, first, out) := by
        simp [fmtOne, is_empty, bits, h0]
      have hdn : debugNames w rem (p :: rest) = debugNames w rem rest := by
        simp [debugNames, h0]
      rw [List.foldl_cons, hstep, ih rem first out, hdn]
    · by_cases hc : rem &&& p.2 = p.2
      · have hdn : debugNames w rem (p :: rest) =
            p.1 :: debugNames w (rem &&& notW w p.2) rest := by
          simp [debugNames, h0, hc]
        rw [List.foldl_cons]
        cases first
        · have hstep : fmtOne w (rem, false, out) p =
              (remove w rem p.2, false, (out ++ " | ") ++ p.1) := by
            simp [fmtOne, is_empty, bits, contains, h0, hc]
          rw [hstep, ih (remove w rem p.2) false ((out ++ " | ") ++ p.1), hdn]
          simp [sepCat, remove, String.append_assoc]
        · have hstep : fmtOne w (rem, true, out) p =
              (remove w rem p.2, false, out ++ p.1) := by
            simp [fmtOne, is_empty, bits, contains, h0, hc]
          rw [hstep, ih (remove w rem p.2) false (out ++ p.1), hdn]
          simp [renderNames, remove, String.append_assoc]
      · have hstep : fmtOne w (rem, first, out) p = (rem, first, out) := by
          simp [fmtOne, is_empty, bits, contains, h0, hc]
        have hdn : debugNames w rem (p :: rest) = debugNames w rem rest := by
          simp [debugNames, h0, hc]
        rw [List.foldl_cons, hstep, ih rem first out, hdn]

/-- The Debug formatter output is the type name around the rendered list of
printed names. -/
theorem fmt_eq_renderNames (d : FlagDecl) (tn : String) (x : Nat) :
    fmt d tn x = tn ++ "(" ++ renderNames (debugNames d.width x d.flags) ++ ")" := by
  unfold fmt
  rw [foldl_fmtOne_out d.width d.flags x true (tn ++ "(")]
  simp [String.append_assoc]

/-- When no non-zero declared flag is contained in the remaining bits, no
name is printed. -/
theorem debugNames_nil_of_none (w : Nat) (l : List (String × Nat)) :
    ∀ rem, (∀ p ∈ l, p.2 ≠ 0 → ¬(rem &&& p.2 = p.2)) →
      debugNames w rem l = [] := by
  induction l with
  | nil => intro rem _; rfl
  | cons p rest ih =>
    intro rem h
    have hp := h p (List.mem_cons_self p rest)
    have hg : ¬(p.2 ≠ 0 ∧ rem &&& p.2 = p.2) := by
      rintro ⟨h1, h2⟩
      exact hp h1 h2
    simp only [debugNames, if_neg hg]
    exact ih rem (fun q hq => h q (List.mem_cons_of_mem p hq))

/-- Every printed name is the name of some declared flag. -/
theorem debugNames_mem_names (w : Nat) (s : String) :
    ∀ (l : List (String × Nat)) (rem : Nat),
      s ∈ debugNames w rem l → s ∈ l.map Prod.fst := by
  intro l
  induction l with
  | nil => intro rem h; exact absurd h (List.not_mem_nil s)
  | cons p rest ih =>
    intro rem h
    by_cases hg : p.2 ≠ 0 ∧ rem &&& p.2 = p.2
    · simp only [debugNames, if_pos hg] at h
      rcases List.mem_cons.mp h with heq | hmem
      · rw [List.map_cons, heq]
        exact List.mem_cons_self p.1 (rest.map Prod.fst)
      · rw [List.map_cons]
        exact List.mem_cons_of_mem p.1 (ih (rem &&& notW w p.2) hmem)
    · simp only [debugNames, if_neg hg] at h
      rw [List.map_cons]
      exact List.mem_cons_of_mem p.1 (ih rem h)

/-- When a declaration with distinct names declares a flag with bit value
zero, that flag's name is printed for no value. -/
theorem zero_name_never_printed (w : Nat) (nm : String) :
    ∀ (l : List (String × Nat)), (nm, 0) ∈ l → (l.map Prod.fst).Nodup →
      ∀ rem, nm ∉ debugNames w rem l := by
  intro l
  induction l with
  | nil => intro hmem _ rem; exact absurd hmem (List.not_mem_nil _)
  | cons p rest ih =>
    intro hmem hnd rem
    rw [List.map_cons] at hnd
    rcases List.nodup_cons.mp hnd with ⟨hh, ht⟩
    rcases List.mem_cons.mp hmem with heq | hmem2
    · have h0 : p.2 = 0 := by rw [← heq]
      have hnm : p.1 = nm := by rw [← heq]
      have hg : ¬(p.2 ≠ 0 ∧ rem &&& p.2 = p.2) := fun hcon => hcon.1 h0
      simp only [debugNames, if_neg hg]
      intro hin
      have hmn : nm ∈ rest.map Prod.fst := debugNames_mem_names w nm rest rem hin
      rw [hnm] at hh
      exact hh hmn
    · by_cases hg : p.2 ≠ 0 ∧ rem &&& p.2 = p.2
      · simp only [debugNames, if_pos hg]
        intro hin
        rcases List.mem_cons.mp hin with heq2 | hmem3
        · have hmn : nm ∈ rest.map Prod.fst :=
            List.mem_map.mpr ⟨(nm, 0), hmem2, rfl⟩
          rw [← heq2] at hh
          exact hh hmn
        · exact ih hmem2 ht (rem &&& notW w p.2) hmem3
      · simp only [debugNames, if_neg hg]
        exact ih hmem2 ht rem

/-! Claim theorems. -/

/-- Claim C1: for every flag-set value the Debug formatter renders
`TypeName(name1 | name2 | ...)`, where the printed names are computed by
testing each declared flag in declaration order against the remaining
unconsumed bits of a working copy, clearing a printed flag's bits before the
next test, and the `" | "` separator appears only between consecutive printed
names; when no non-zero declared flag is contained in the value the output is
exactly `TypeName()`. -/
theorem debug_format_renders (d : FlagDecl) (tn : String) (x : Nat) :
    fmt d tn x = tn ++ "(" ++ renderNames (debugNames d.width x d.flags) ++ ")" ∧
    ((∀ p ∈ d.flags, p.2 ≠ 0 → ¬(x &&& p.2 = p.2)) → fmt d tn x = tn ++ "()") := by
  constructor
  · exact fmt_eq_renderNames d tn x
  · intro h
    rw [fmt_eq_renderNames d tn x, debugNames_nil_of_none d.width d.flags x h]
    have hlit : "(" ++ (renderNames ([] : List String) ++ ")") = "()" := rfl
    simp only [String.append_assoc]
    exact congrArg (fun s => tn ++ s) hlit

theorem debug_format_renders_witness :
    (∀ p ∈ fooDecl.flags, p.2 ≠ 0 → ¬((4 : Nat) &&& p.2 = p.2)) ∧
    fmt fooDecl "Foo" 4 = "Foo()" :=
  ⟨by decide, (debug_format_renders fooDecl "Foo" 4).2 (by decide)⟩

/-- Claim C2: the complement operator is XOR with `ALL`, the OR of every
declared flag value — complement relative to the declared universe — and it
never sets bits outside `ALL` when its argument's bits are within `ALL`. -/
theorem not_is_xor_all (d : FlagDecl) (a : Nat) :
    NewBitflags.not d a = a ^^^ all d ∧
    (a &&& all d = a → NewBitflags.not d a &&& all d = NewBitflags.not d a) := by
  constructor
  · rfl
  · intro ha
    show (a ^^^ all d) &&& all d = a ^^^ all d
    exact xor_all_closed (all d) a ha

theorem not_is_xor_all_witness :
    (1 : Nat) &&& all fooDecl = 1 ∧
    NewBitflags.not fooDecl 1 &&& all fooDecl = NewBitflags.not fooDecl 1 :=
  ⟨by decide, (not_is_xor_all fooDecl 1).2 (by decide)⟩

/-- Claim C3: for every integer of the backing width, the strict constructor
`from_bits` succeeds with a value whose bits equal the input iff the input
has no bit outside `ALL`; for any input with a bit outside `ALL` it returns
`none` with no partial result. -/
theorem from_bits_valid_iff (d : FlagDecl) (x : Nat) (hx : x < 2 ^ d.width) :
    (from_bits d x = some x ↔ x &&& all d = x) ∧
    (¬(x &&& all d = x) → from_bits d x = none) := by
  have key := land_notW_eq_zero_iff d.width x (all d) hx
  constructor
  · constructor
    · intro h
      by_contra hne
      have hcond : ¬(x &&& notW d.width (all d) = 0) := fun hc => hne (key.mp hc)
      unfold from_bits at h
      rw [if_neg hcond] at h
      exact Option.noConfusion h
    · intro h
      unfold from_bits
      rw [if_pos (key.mpr h)]
  · intro h
    have hcond : ¬(x &&& notW d.width (all d) = 0) := fun hc => h (key.mp hc)
    unfold from_bits
    rw [if_neg hcond]

theorem from_bits_valid_iff_witness :
    ((1 : Nat) < 2 ^ fooDecl.width ∧ from_bits fooDecl 1 = some 1) ∧
    ((4 : Nat) < 2 ^ fooDecl.width ∧ from_bits fooDecl 4 = none) :=
  ⟨⟨by decide, ((from_bits_valid_iff fooDecl 1 (by decide)).1).mpr (by decide)⟩,
   ⟨by decide, (from_bits_valid_iff fooDecl 4 (by decide)).2 (by decide)⟩⟩

/-- Claim C4: for values whose bits are subsets of `ALL`, union, intersection,
symmetric difference, set difference and complement all stay within `ALL`:
every set-algebra operation is closed over the declared universe. -/
theorem ops_closed_in_all (d : FlagDecl) (a b : Nat)
    (ha : a &&& all d = a) (hb : b &&& all d = b) :
    bitor a b &&& all d = bitor a b ∧
    bitand a b &&& all d = bitand a b ∧
    bitxor a b &&& all d = bitxor a b ∧
    sub d.width a b &&& all d = sub d.width a b ∧
    NewBitflags.not d a &&& all d = NewBitflags.not d a := by
  have ha2 := (land_self_iff a (all d)).mp ha
  have hb2 := (land_self_iff b (all d)).mp hb
  refine ⟨?_, ?_, ?_, ?_, ?_⟩
  · rw [land_self_iff]
    intro i hi
    simp only [bitor, Nat.testBit_lor] at hi
    cases h2 : a.testBit i
    · rw [h2] at hi
      simp at hi
      exact hb2 i hi
    · exact ha2 i h2
  · rw [land_self_iff]
    intro i hi
    simp only [bitand, Nat.testBit_land] at hi
    cases h2 : a.testBit i
    · rw [h2] at hi
      simp at hi
    · exact ha2 i h2
  · rw [land_self_iff]
    intro i hi
    simp only [bitxor, Nat.testBit_xor] at hi
    cases h2 : a.testBit i
    · rw [h2] at hi
      simp at hi
      exact hb2 i hi
    · exact ha2 i h2
  · rw [land_self_iff]
    intro i hi
    simp only [sub, remove, Nat.testBit_land] at hi
    cases h2 : a.testBit i
    · rw [h2] at hi
      simp at hi
    · exact ha2 i h2
  · show (a ^^^ all d) &&& all d = a ^^^ all d
    exact xor_all_closed (all d) a ha

theorem ops_closed_in_all_witness :
    ((1 : Nat) &&& all fooDecl = 1) ∧ ((2 : Nat) &&& all fooDecl = 2) ∧
    bitor 1 2 &&& all fooDecl = bitor 1 2 :=
  ⟨by decide, by decide, (ops_closed_in_all fooDecl 1 2 (by decide) (by decide)).1⟩

/-- Claim C5: the truncating constructor always succeeds, its result's bits
are exactly the input masked with `ALL`, and the result is within `ALL`. -/
theorem from_bits_truncate_masks (d : FlagDecl) (x : Nat) :
    from_bits_truncate d x = x &&& all d ∧
    from_bits_truncate d x &&& all d = from_bits_truncate d x := by
  constructor
  · rfl
  · show (x &&& all d) &&& all d = x &&& all d
    rw [land_self_iff]
    intro i hi
    rw [Nat.testBit_land] at hi
    cases h2 : x.testBit i
    · rw [h2] at hi
      simp at hi
    · rw [h2] at hi
      simpa using hi

/-- Claim C6: `contains` returns true exactly when every bit set in the
argument is also set in the receiver, and it is vacuously true on the empty
set. -/
theorem contains_iff_subset (a b : Nat) :
    (contains a b = true ↔ a &&& b = b) ∧ contains a 0 = true := by
  constructor
  · simp [contains]
  · simp [contains]

/-- Claim C7: for values with bits within `ALL`, complement is an involution
and De Morgan's law holds restricted to the declared universe. -/
theorem not_involutive_deMorgan (d : FlagDecl) (a b : Nat)
    (ha : a &&& all d = a) (hb : b &&& all d = b) :
    NewBitflags.not d (NewBitflags.not d a) = a ∧
    NewBitflags.not d (bitor a b) =
      bitand (NewBitflags.not d a) (NewBitflags.not d b) := by
  have ha2 := (land_self_iff a (all d)).mp ha
  have hb2 := (land_self_iff b (all d)).mp hb
  constructor
  · show (a ^^^ all d) ^^^ all d = a
    rw [Nat.xor_assoc, Nat.xor_self, Nat.xor_zero]
  · apply Nat.eq_of_testBit_eq
    intro i
    show ((a ||| b) ^^^ all d).testBit i =
      ((a ^^^ all d) &&& (b ^^^ all d)).testBit i
    rw [Nat.testBit_xor, Nat.testBit_lor, Nat.testBit_land, Nat.testBit_xor,
      Nat.testBit_xor]
    cases hA : (all d).testBit i
    · have haf : a.testBit i = false := by
        cases h2 : a.testBit i
        · rfl
        · rw [ha2 i h2] at hA
          exact absurd hA (by decide)
      have hbf : b.testBit i = false := by
        cases h2 : b.testBit i
        · rfl
        · rw [hb2 i h2] at hA
          exact absurd hA (by decide)
      rw [haf, hbf]
      decide
    · cases h2 : a.testBit i <;> cases h3 : b.testBit i <;> decide

theorem not_involutive_deMorgan_witness :
    ((1 : Nat) &&& all fooDecl = 1) ∧ ((2 : Nat) &&& all fooDecl = 2) ∧
    NewBitflags.not fooDecl (NewBitflags.not fooDecl 1) = 1 :=
  ⟨by decide, by decide,
   (not_involutive_deMorgan fooDecl 1 2 (by decide) (by decide)).1⟩

/-- Claim C8: a declared flag with bit value zero is contained in every
flag-set value, and — for a declaration with distinct flag names — its name
is never among the names the Debug formatter prints, for any value. -/
theorem zero_flag_transparent (d : FlagDecl) (nm : String)
    (hmem : (nm, 0) ∈ d.flags) (hnd : (d.flags.map Prod.fst).Nodup) :
    (∀ a : Nat, contains a 0 = true) ∧
    ∀ x : Nat, nm ∉ debugNames d.width x d.flags := by
  constructor
  · intro a
    simp [contains]
  · intro x
    exact zero_name_never_printed d.width nm d.flags hmem hnd x

theorem zero_flag_transparent_witness :
    (("nothing", (0 : Nat)) ∈ fooDecl.flags ∧
      (fooDecl.flags.map Prod.fst).Nodup) ∧
    contains 5 0 = true ∧
    "nothing" ∉ debugNames fooDecl.width 3 fooDecl.flags :=
  ⟨⟨by decide, by decide⟩,
   (zero_flag_transparent fooDecl "nothing" (by decide) (by decide)).1 5,
   (zero_flag_transparent fooDecl "nothing" (by decide) (by decide)).2 3⟩

/-- Folding `insert` from an accumulator is the accumulator ORed with the OR
of the list. -/
theorem foldl_insert_eq_lor (l : List Nat) :
    ∀ acc : Nat, l.foldl insert acc = acc ||| l.foldr (· ||| ·) 0 := by
  induction l with
  | nil =>
    intro acc
    simp [List.foldl_nil, List.foldr_nil, Nat.or_zero]
  | cons a rest ih =>
    intro acc
    rw [List.foldl_cons, List.foldr_cons, ih (insert acc a)]
    show (acc ||| a) ||| rest.foldr (· ||| ·) 0 =
      acc ||| (a ||| rest.foldr (· ||| ·) 0)
    rw [Nat.lor_assoc]

/-- The OR of a list of values is invariant under permutation. -/
theorem foldr_lor_perm {l la : List Nat} (h : l.Perm la) :
    l.foldr (· ||| ·) 0 = la.foldr (· ||| ·) 0 := by
  induction h with
  | nil => rfl
  | cons x _ ih => rw [List.foldr_cons, List.foldr_cons, ih]
  | swap x y l2 =>
    show y ||| (x ||| l2.foldr (· ||| ·) 0) = x ||| (y ||| l2.foldr (· ||| ·) 0)
    rw [← Nat.lor_assoc, ← Nat.lor_assoc, Nat.lor_comm y x]
  | trans _ _ ih1 ih2 => rw [ih1, ih2]

/-- Claim C9: folding a finite sequence of flag-set values with `insert`
starting from `empty` — as `FromIterator` and `Extend` do — yields the
bitwise OR of all elements, and the result is the same for every reordering
of the sequence. -/
theorem from_iter_is_or (l la : List Nat) (h : l.Perm la) :
    from_iter l = l.foldr (· ||| ·) 0 ∧ from_iter l = from_iter la := by
  have e1 : from_iter l = l.foldr (· ||| ·) 0 := by
    show l.foldl insert empty = _
    rw [foldl_insert_eq_lor l empty]
    show 0 ||| _ = _
    rw [Nat.zero_or]
  have e2 : from_iter la = la.foldr (· ||| ·) 0 := by
    show la.foldl insert empty = _
    rw [foldl_insert_eq_lor la empty]
    show 0 ||| _ = _
    rw [Nat.zero_or]
  exact ⟨e1, by rw [e1, e2]; exact foldr_lor_perm h⟩

theorem from_iter_is_or_witness :
    List.Perm [1, 2] [2, 1] ∧ from_iter [1, 2] = from_iter [2, 1] :=
  ⟨by decide, (from_iter_is_or [1, 2] [2, 1] (by decide)).2⟩

/-- Claim C10: with `f1 = 0b01` declared before `f2 = 0b11`, formatting the
value with bits `0b11` prints only the earlier flag's name — the output is
`TypeName(f1)` — even though the value contains `f2`; the later flag's name
is not among the printed names. -/
theorem overlapping_flags_debug :
    fmt overlapDecl "TypeName" 3 = "TypeName(f1)" ∧
    contains 3 3 = true ∧
    "f2" ∉ debugNames overlapDecl.width 3 overlapDecl.flags :=
  ⟨by decide, by decide, by decide⟩

end NewBitflags
